import Mathlib

/-!
Verification development for the fswatch watch-and-react engine
(src/fswatch.go).  The Go source is shallowly embedded: pure helpers become
Lean functions, the stateful pipeline (transformEvent, the trigger engine
loop) becomes explicit state passing over event lists, and the filesystem
environment (os.Stat results, the on-disk directory tree) is passed in as
data.  Durations and timestamps are integer nanosecond counts (Go time.Time
subtraction saturates only beyond 292 years, far above the 100ms threshold
the code compares against, so exact Int arithmetic decides every comparison
the code makes identically).  String helpers from the Go standard library
are embedded as structurally recursive functions over character lists so
that every definition evaluates by kernel reduction.
-/

/-! ## String helpers (Go strings package) -/

/-- Embedding of strings.Split(s, sep) for a one-character separator,
as an accumulator recursion over the characters. -/
def splitCharAux (sep : Char) : List Char → List Char → List (List Char)
  | acc, [] => [acc.reverse]
  | acc, c :: rest =>
    if c == sep then acc.reverse :: splitCharAux sep [] rest
    else splitCharAux sep (c :: acc) rest

/-- strings.Split(s, sep) for a one-character separator. -/
def splitChar (sep : Char) (s : String) : List String :=
  (splitCharAux sep [] s.data).map String.mk

/-- The whitespace characters strings.TrimSpace removes at both ends. -/
def isSpaceChar (c : Char) : Bool :=
  c == ' ' || c == '\t' || c == '\n' || c == '\r' || c == '\x0b' || c == '\x0c'

/-- Embedding of strings.TrimSpace. -/
def trimStr (s : String) : String :=
  String.mk (((s.data.dropWhile isSpaceChar).reverse.dropWhile isSpaceChar).reverse)

/-- Embedding of strings.HasPrefix(s, pre). -/
def strHasPfx (s pre : String) : Bool :=
  pre.data.isPrefixOf s.data

/-- Embedding of strings.Join(parts, "/"). -/
def joinSlash : List String → String
  | [] => ""
  | [s] => s
  | s :: rest => s ++ "/" ++ joinSlash rest

/-- Embedding of strings.Join(parts, "\n"), as fixFWConfig uses it to feed
the pattern list to the ignore reader. -/
def joinLines : List String → String
  | [] => ""
  | [s] => s
  | s :: rest => s ++ "\n" ++ joinLines rest

/-! ## Path utilities (Go path/filepath on the Unix separator) -/

/-- Embedding of Go filepath.Base: strip trailing slashes, then keep the last
path element; the empty string gives ".", an all-slash path gives "/". -/
def pathBase (p : String) : String :=
  if p = "" then "."
  else
    let cs := p.data.reverse.dropWhile (fun c => c == '/')
    if cs = [] then "/"
    else String.mk ((cs.takeWhile (fun c => c != '/')).reverse)

/-- Embedding of strings.Count(path, string(os.PathSeparator)) on Unix. -/
def sepCount (p : String) : Nat := p.data.count '/'

/-- Embedding of filepath.Join(parent, name) for the joins performed by
filepath.Walk: name is a single directory entry, parent is an already clean
path.  Go cleans the joined result, which on these inputs only collapses a
leading "./". -/
def joinPath (p n : String) : String :=
  if p = "." then n else p ++ "/" ++ n

/-- Helper for cleanPath: resolve ".." components left to right over a
reversed accumulator of kept components. -/
def cleanResolve (abs : Bool) : List String → List String → List String
  | acc, [] => acc.reverse
  | acc, c :: rest =>
    if c = ".." then
      match acc with
      | [] => if abs then cleanResolve abs [] rest else cleanResolve abs [".."] rest
      | _ :: t => cleanResolve abs t rest
    else cleanResolve abs (c :: acc) rest

/-- Embedding of Go filepath.Clean on Unix paths: drop empty and "."
components, resolve "..", keep a leading slash, return "." for an empty
relative result. -/
def cleanPath (p : String) : String :=
  if p = "" then "."
  else
    let abs := p.data.head? = some '/'
    let comps := (splitChar '/' p).filter (fun c => c != "" && c != ".")
    let comps2 := cleanResolve abs [] comps
    if abs then
      if comps2 = [] then "/" else "/" ++ joinSlash comps2
    else
      if comps2 = [] then "." else joinSlash comps2

/-! ## Ignore-style pattern matching

The repository matches paths with github.com/codeskyblue/dockerignore, an
external dependency.  Its behaviour is modelled from the spec: ignore-file
style glob rules with a negation marker "!", "**" spanning separators, a
later rule overriding earlier ones; the reader skips blank lines and "#"
comment lines; patterns and candidate paths are cleaned before matching; a
rule that matches a directory also matches everything below it. -/

/-- Fuel-based glob match of one pattern component against one path
component: "*" matches any run of characters, "?" one character, the rest
literally.  Every recursive call shrinks the combined length, so fuel
exceeding it never runs out. -/
def matchCompF : Nat → List Char → List Char → Bool
  | 0, _, _ => false
  | fuel + 1, ps, cs =>
    match ps, cs with
    | [], [] => true
    | '*' :: ps2, cs =>
      matchCompF fuel ps2 cs ||
        (match cs with
         | [] => false
         | _ :: cs2 => matchCompF fuel ('*' :: ps2) cs2)
    | '?' :: ps2, _ :: cs2 => matchCompF fuel ps2 cs2
    | p :: ps2, c :: cs2 => p == c && matchCompF fuel ps2 cs2
    | _, _ => false

/-- Glob match of one pattern component against one path component. -/
def matchComp (ps cs : List Char) : Bool :=
  matchCompF (ps.length + cs.length + 1) ps cs

/-- Fuel-based match of a pattern, split on "/", against a path, split on
"/"; a "**" component spans any number of path components. -/
def matchSegsF : Nat → List String → List String → Bool
  | 0, _, _ => false
  | fuel + 1, ps, ss =>
    match ps, ss with
    | [], [] => true
    | [], _ :: _ => false
    | p :: ps2, ss =>
      if p = "**" then
        matchSegsF fuel ps2 ss ||
          (match ss with
           | [] => false
           | _ :: ss2 => matchSegsF fuel ("**" :: ps2) ss2)
      else
        match ss with
        | [] => false
        | s :: ss2 => matchComp p.data s.data && matchSegsF fuel ps2 ss2

/-- Match of a slash-split pattern against a slash-split path. -/
def matchSegs (ps ss : List String) : Bool :=
  matchSegsF (ps.length + ss.length + 1) ps ss

/-- One cleaned pattern against the cleaned path components: the pattern may
match the whole path or any ancestor directory of it. -/
def matchOne (pat : String) (fileSegs : List String) : Bool :=
  let ps := splitChar '/' pat
  fileSegs.inits.any (fun pre => !pre.isEmpty && matchSegs ps pre)

/-- Modelled from the spec: dockerignore Matches(file, patterns), the match
test TriggerEvent.WatchEvent applies to each incoming event path.  Rules are
scanned in order; a blank rule is skipped; a matching rule sets the outcome
to true, a matching negated rule resets it to false (later rules override
earlier ones). -/
def ignoreMatches (file : String) (pats : List String) : Bool :=
  let fileSegs := splitChar '/' (cleanPath file)
  pats.foldl
    (fun matched pat =>
      if trimStr pat = "" then matched
      else
        let neg := strHasPfx pat "!"
        let body := cleanPath (String.mk (if neg then pat.data.drop 1 else pat.data))
        if matchOne body fileSegs then !neg else matched)
    false

/-- Modelled from the spec: dockerignore ReadIgnore over the lines of the
joined pattern list — blank lines and "#" comment lines are dropped, the
remaining rules are cleaned. -/
def readIgnoreLines (lines : List String) : List String :=
  lines.filterMap (fun l =>
    let t := trimStr l
    if t = "" then none
    else if strHasPfx t "#" then none
    else some (cleanPath t))

/-- The pattern compilation performed by fixFWConfig (src/fswatch.go lines
168-174): join the raw pattern list with newlines and read it back as an
ignore file. -/
def compilePattens (ps : List String) : List String :=
  readIgnoreLines (splitChar '\n' (joinLines ps))

/-! ## Signals and durations -/

/-- The six POSIX signals of the fixed signalMaps table in src/fswatch.go. -/
inductive OsSignal where
  | sigint
  | sighup
  | sigquit
  | sigtrap
  | sigterm
  | sigkill
deriving DecidableEq

/-- Embedding of the signalMaps lookup table after init(): each base name is
also addressable with a "SIG" prefix and by its Linux numeric value.  A Go
map lookup of a missing key yields the zero value, here none. -/
def signalMaps (s : String) : Option OsSignal :=
  if s = "INT" || s = "SIGINT" || s = "2" then some OsSignal.sigint
  else if s = "HUP" || s = "SIGHUP" || s = "1" then some OsSignal.sighup
  else if s = "QUIT" || s = "SIGQUIT" || s = "3" then some OsSignal.sigquit
  else if s = "TRAP" || s = "SIGTRAP" || s = "5" then some OsSignal.sigtrap
  else if s = "TERM" || s = "SIGTERM" || s = "15" then some OsSignal.sigterm
  else if s = "KILL" || s = "SIGKILL" || s = "9" then some OsSignal.sigkill
  else none

/-- Nanoseconds per duration unit accepted by Go time.ParseDuration. -/
def unitNs (u : String) : Option Int :=
  if u = "ns" then some 1
  else if u = "us" || u = "µs" || u = "μs" then some 1000
  else if u = "ms" then some 1000000
  else if u = "s" then some 1000000000
  else if u = "m" then some 60000000000
  else if u = "h" then some 3600000000000
  else none

/-- Decimal digits to a natural number. -/
def parseNatDigits (ds : List Char) : Nat :=
  ds.foldl (fun a c => a * 10 + (c.toNat - 48)) 0

/-- Fuel-based parse of the group part of a Go duration: one or more
runs of digits each followed by a unit. -/
def parseGroups : Nat → List Char → Option Int
  | 0, _ => none
  | fuel + 1, cs =>
    let ds := cs.takeWhile (fun c => c.isDigit)
    let rest := cs.dropWhile (fun c => c.isDigit)
    if ds = [] then none
    else
      let us := rest.takeWhile (fun c => !c.isDigit)
      let rest2 := rest.dropWhile (fun c => !c.isDigit)
      match unitNs (String.mk us) with
      | none => none
      | some mult =>
        let v : Int := (parseNatDigits ds : Int) * mult
        if rest2 = [] then some v
        else
          match parseGroups fuel rest2 with
          | none => none
          | some w => some (v + w)

/-- Modelled from Go time.ParseDuration, restricted to durations whose
components are integers (no fractional part): an optional sign, then digit
runs each followed by a unit; the bare string "0" is allowed; anything else
without a valid unit is an error (none).  Negative durations parse
successfully, as in Go. -/
def parseDuration (s : String) : Option Int :=
  match s.data with
  | [] => none
  | c :: rest =>
    let neg := c = '-'
    let cs := if c = '-' || c = '+' then rest else c :: rest
    if cs = ['0'] then some 0
    else if cs = [] then none
    else
      match parseGroups (cs.length + 1) cs with
      | none => none
      | some v => some (if neg then -v else v)

/-! ## Configuration model and fix-up -/

/-- Embedding of the TriggerEvent record of src/fswatch.go.  The Go map
Environ is modelled as an association list; the runtime process handle kcmd
is not part of the configuration data and lives in the engine state. -/
structure TriggerEvent where
  Name : String
  Pattens : List String
  matchPattens : List String
  Environ : List (String × String)
  Command : String
  Delay : String
  delayDuration : Int
  Signal : String
  killSignal : Option OsSignal
deriving DecidableEq

/-- Embedding of the FWConfig record of src/fswatch.go. -/
structure FWConfig where
  Description : String
  Triggers : List TriggerEvent
  WatchPaths : List String
  WatchDepth : Int
deriving DecidableEq

/-- The per-trigger part of fixFWConfig (src/fswatch.go lines 154-175):
default the delay to "100ms" and parse it (an invalid duration is an
error), default the signal to "HUP" and look it up in signalMaps (a missing
key silently yields the zero value), and compile the pattern list. -/
def fixTrigger (t : TriggerEvent) : Except String TriggerEvent :=
  let delay := if t.Delay = "" then "100ms" else t.Delay
  match parseDuration delay with
  | none => Except.error ("time: invalid duration " ++ delay)
  | some d =>
    let sig := if t.Signal = "" then "HUP" else t.Signal
    Except.ok { t with Delay := delay, delayDuration := d, Signal := sig,
                       killSignal := signalMaps sig,
                       matchPattens := compilePattens t.Pattens }

/-- Sequential traversal of the trigger list returning the first error, as
the for-loop of fixFWConfig does. -/
def mapME (f : TriggerEvent → Except String TriggerEvent) :
    List TriggerEvent → Except String (List TriggerEvent)
  | [] => Except.ok []
  | t :: ts =>
    match f t with
    | Except.error e => Except.error e
    | Except.ok t2 =>
      match mapME f ts with
      | Except.error e => Except.error e
      | Except.ok ts2 => Except.ok (t2 :: ts2)

/-- Embedding of fixFWConfig (src/fswatch.go lines 152-184): fix every
trigger (propagating the first error) and default the watch paths to ["."]
and the watch depth to 5. -/
def fixFWConfig (c : FWConfig) : Except String FWConfig :=
  match mapME fixTrigger c.Triggers with
  | Except.error e => Except.error e
  | Except.ok ts =>
    Except.ok { c with
      Triggers := ts,
      WatchPaths := if c.WatchPaths = [] then ["."] else c.WatchPaths,
      WatchDepth := if c.WatchDepth = 0 then 5 else c.WatchDepth }

/-- The trigger list of a successfully fixed configuration ([] on error). -/
def fixedTriggers (c : FWConfig) : List TriggerEvent :=
  match fixFWConfig c with
  | Except.ok o => o.Triggers
  | Except.error _ => []

/-- Whether configuration fix-up succeeds. -/
def fixOk (c : FWConfig) : Bool :=
  match fixFWConfig c with
  | Except.ok _ => true
  | Except.error _ => false

/-- The match test TriggerEvent.WatchEvent performs on each received event
(src/fswatch.go line 124): ignore.Matches of the event path against the raw
Pattens field. -/
def runtimeMatch (t : TriggerEvent) (path : String) : Bool :=
  ignoreMatches path t.Pattens

/-! ## Process environment construction (TriggerEvent.Start) -/

/-- Embedding of the environment slice built by TriggerEvent.Start
(src/fswatch.go lines 92-96): the inherited process environment with the
trigger's Environ entries appended after it. -/
def startEnv (t : TriggerEvent) (osEnv : List (String × String)) :
    List (String × String) :=
  osEnv ++ t.Environ

/-- The value a child process observes for a key: Go os/exec deduplicates
the Env slice keeping, for each name, the last entry. -/
def lookupEnv (env : List (String × String)) (k : String) : Option String :=
  (env.reverse.find? (fun e => e.1 == k)).map (fun e => e.2)

/-! ## Change debouncing (IsChanged) and the event pipeline
(transformEvent) -/

/-- The os.Stat facts the pipeline consults about a path at the moment an
event is processed: whether it is a directory and its modification time in
nanoseconds. -/
structure FInfo where
  isDir : Bool
  modTime : Int
deriving DecidableEq

/-- The fileModifyTimeMap: a Go map from path to time, modelled as an
association list where the newest binding is consed in front; a missing
path reads as the zero time 0. -/
abbrev DebMap : Type := List (String × Int)

/-- Lookup in the debounce map; a missing key yields Go's zero time. -/
def debGet (m : DebMap) (p : String) : Int :=
  match List.find? (fun e => e.1 == p) m with
  | some e => e.2
  | none => 0

/-- Map update, consing the new binding in front. -/
def debSet (m : DebMap) (p : String) (v : Int) : DebMap :=
  (p, v) :: m

/-- Embedding of IsChanged (src/fswatch.go lines 258-269) with the os.Stat
result passed in: a stat failure reports a change without touching the map;
otherwise the notification is accepted exactly when the modification time
exceeds the stored one by more than 100ms, and acceptance stores it. -/
def isChanged (stat : Option FInfo) (m : DebMap) (p : String) : Bool × DebMap :=
  match stat with
  | none => (true, m)
  | some info =>
    if info.modTime - debGet m p > 100000000 then (true, debSet m p info.modTime)
    else (false, m)

/-- Acceptance flags of a sequence of stat results for one path. -/
def debRunFlags (p : String) (infos : List FInfo) (m : DebMap) : List Bool :=
  match infos with
  | [] => []
  | i :: is =>
    let r := isChanged (some i) m p
    r.1 :: debRunFlags p is r.2

/-- The operation of an fsnotify event.  The pipeline compares evt.Op for
equality, so each modelled event carries one operation. -/
inductive FsOp where
  | create
  | write
  | remove
  | rename
  | chmod
deriving DecidableEq

/-- A raw fsnotify notification together with the os.Stat answer the
pipeline would get for its path at processing time (none when stat fails,
e.g. the path is already gone). -/
structure RawEvent where
  name : String
  op : FsOp
  stat : Option FInfo
deriving DecidableEq

/-- Embedding of IsDirectory (src/fswatch.go lines 251-254). -/
def isDirOf (stat : Option FInfo) : Bool :=
  match stat with
  | some info => info.isDir
  | none => false

/-- The mutable state of the watch pipeline: the fsnotify watcher's
registered directories (fsnotify.Add is idempotent, fsnotify.Remove fails
harmlessly on an unwatched path), the debounce map, and the FSEvent names
forwarded to the bus so far. -/
structure WatchState where
  watched : List String
  deb : DebMap
  out : List String
deriving DecidableEq

/-- fsnotify Watcher.Add: registering an already watched path changes
nothing. -/
def addWatch (ws : List String) (n : String) : List String :=
  if n ∈ ws then ws else ws ++ [n]

/-- Embedding of one iteration of transformEvent (src/fswatch.go lines
364-385): a Create of a directory adds a watch and is swallowed; any Remove
drops the watch (if present) and is swallowed; everything else is forwarded
exactly when IsChanged accepts it. -/
def transformStep (s : WatchState) (evt : RawEvent) : WatchState :=
  if evt.op == FsOp.create && isDirOf evt.stat then
    { s with watched := addWatch s.watched evt.name }
  else if evt.op == FsOp.remove then
    { s with watched := s.watched.erase evt.name }
  else
    let r := isChanged evt.stat s.deb evt.name
    if r.1 then { s with deb := r.2, out := s.out ++ [evt.name] }
    else { s with deb := r.2 }

/-- transformEvent over a whole sequence of raw notifications. -/
def transformRun (evts : List RawEvent) (s : WatchState) : WatchState :=
  evts.foldl transformStep s

/-- The names the debounce filter lets through, as a function of the raw
event sequence and the debounce map alone. -/
def acceptedNames : List RawEvent → DebMap → List String
  | [], _ => []
  | e :: es, m =>
    if e.op == FsOp.create && isDirOf e.stat then acceptedNames es m
    else if e.op == FsOp.remove then acceptedNames es m
    else
      let r := isChanged e.stat m e.name
      if r.1 then e.name :: acceptedNames es r.2 else acceptedNames es r.2

/-! ## Directory enumeration (ListAllDir, WatchPathAndChildren)

The on-disk tree below a root is modelled as a tree of directories (only
directories matter: the walk callback only acts on them).  filepath.Walk
visits a directory before its children and prunes a subtree when the
callback answers SkipDir; sibling order is irrelevant to the membership
facts proved here. -/

mutual
/-- A directory with its name and subdirectories. -/
inductive DirTree where
  | node (name : String) (children : Forest)
/-- A list of sibling directories. -/
inductive Forest where
  | nil
  | cons (t : DirTree) (ts : Forest)
deriving DecidableEq
end

/-- The name of a directory node. -/
def DirTree.name : DirTree → String
  | .node n _ => n

/-- The subdirectories of a directory node. -/
def DirTree.children : DirTree → Forest
  | .node _ cs => cs

/-- Walk below a node at path q: each child joins its name onto q, is
skipped together with its subtree when its base name starts with "."
(unless it is exactly ".") or its separator depth relative to the root
exceeds the maximum, and is listed before its own children otherwise
(src/fswatch.go lines 219-237). -/
def walkForest (dmax : Int) (bs : Nat) : String → Forest → List String
  | _, .nil => []
  | q, .cons (.node n cs) rest =>
    (if (pathBase (joinPath q n)) != "." && strHasPfx (pathBase (joinPath q n)) "." then []
     else if decide ((sepCount (joinPath q n) : Int) - (bs : Int) > dmax) then []
     else joinPath q n :: walkForest dmax bs (joinPath q n) cs) ++ walkForest dmax bs q rest

/-- Embedding of ListAllDir(path, depth): the root is subject to the same
callback checks (its FileInfo name is filepath.Base(path), its relative
depth is 0), then the subtree is walked. -/
def listAllDir (path : String) (t : DirTree) (depth : Int) : List String :=
  if (pathBase path) != "." && strHasPfx (pathBase path) "." then []
  else if decide ((sepCount path : Int) - (sepCount path : Int) > depth) then []
  else path :: walkForest depth (sepCount path) path t.children

/-- The name chains of every node of a forest, relative to the forest's
root. -/
def forestChains : Forest → List (List String)
  | .nil => []
  | .cons (.node n cs) rest =>
    [n] :: (forestChains cs).map (fun ch => n :: ch) ++ forestChains rest

/-- No directory name in the forest is empty, "." or contains a separator —
true of any tree read from a real filesystem, where names are directory
entries. -/
def goodNames : Forest → Bool
  | .nil => true
  | .cons (.node n cs) rest =>
    (n != "") && (n != ".") && !(n.data.contains '/') && goodNames cs && goodNames rest

/-- The path of a node reached from q along a chain of names. -/
def pathOfChain (q : String) (ch : List String) : String :=
  ch.foldl joinPath q

/-- Every directory strictly below q along the chain has a base name not
starting with "." and a separator depth within the maximum. -/
def belowOk (dmax : Int) (bs : Nat) : String → List String → Bool
  | _, [] => true
  | q, n :: ns =>
    !(strHasPfx (pathBase (joinPath q n)) ".") &&
      decide ((sepCount (joinPath q n) : Int) - (bs : Int) ≤ dmax) &&
      belowOk dmax bs (joinPath q n) ns

/-- The directories claim C6 says the enumeration returns: reachable by a
chain of visible, depth-bounded directories, with the root itself exempt
from the hidden-name check. -/
abbrev claimListed (root : String) (t : DirTree) (dmax : Int) (p : String) : Prop :=
  ∃ ch ∈ ([] : List String) :: forestChains t.children,
    p = pathOfChain root ch ∧ (0 : Int) ≤ dmax ∧
      belowOk dmax (sepCount root) root ch = true

/-- The hidden-name check the code actually applies to the root: only a
root whose base name is exactly "." is exempt. -/
def rootVisible (root : String) : Bool :=
  (pathBase root == ".") || !(strHasPfx (pathBase root) ".")

/-- The directories the enumeration returns once the root exemption is
stated as the code has it. -/
abbrev amendedListed (root : String) (t : DirTree) (dmax : Int) (p : String) : Prop :=
  rootVisible root = true ∧ claimListed root t dmax p

/-- The visited/watched state of WatchPathAndChildren. -/
structure WalkSt where
  visits : List String
  watched : List String
deriving DecidableEq

/-- Embedding of the watchDir closure (src/fswatch.go lines 277-284): a
path in visits is skipped, otherwise it is added to the watcher and marked
visited. -/
def watchDir (st : WalkSt) (dir : String) : WalkSt :=
  if dir ∈ st.visits then st
  else { visits := st.visits ++ [dir], watched := addWatch st.watched dir }

/-- Embedding of WatchPathAndChildren (src/fswatch.go lines 272-304): for
each not-yet-visited root, watch it and every directory ListAllDir finds
under it. -/
def watchPathAndChildren (depth : Int) : WalkSt → List (String × DirTree) → WalkSt
  | st, [] => st
  | st, (path, tree) :: rest =>
    if path ∈ st.visits then watchPathAndChildren depth st rest
    else
      watchPathAndChildren depth
        ((listAllDir path tree depth).foldl watchDir (watchDir st path)) rest

/-! ## The trigger engine (TriggerEvent.WatchEvent, Start, Stop)

One engine task per trigger.  Its observable behaviour is the sequence of
actions it performs: starting process instances (numbered in start order),
stopping the current one (by signal, or as a no-op when it has already
exited), sleeping the configured delay, and finishing.  Each received event
carries, besides its path, whether the current process had already exited
when Stop inspects it. -/

/-- An observable engine action. -/
inductive Act where
  | start (pid : Nat)
  | stopSig (pid : Nat)
  | stopNoop (pid : Nat)
  | sleep (d : Int)
  | done
deriving DecidableEq

/-- One event received from the trigger's channel: the FSEvent path and
whether the current process has already exited when it is stopped. -/
structure EvtIn where
  name : String
  exited : Bool
deriving DecidableEq

/-- Engine state: the current process handle (kcmd), the next process
number, and the action trace so far. -/
structure ESt where
  cur : Option Nat
  next : Nat
  tr : List Act
deriving DecidableEq

/-- The stop action Stop performs on process pid: observe it exited, or
send the configured signal. -/
def stopAct (exited : Bool) (pid : Nat) : Act :=
  if exited then Act.stopNoop pid else Act.stopSig pid

/-- Embedding of TriggerEvent.Start (src/fswatch.go lines 88-106): a new
process instance becomes the current one. -/
def emitStart (st : ESt) : ESt :=
  { cur := some st.next, next := st.next + 1, tr := st.tr ++ [Act.start st.next] }

/-- Embedding of TriggerEvent.Stop (src/fswatch.go lines 108-118): nothing
happens without a current process; an exited process is only observed; a
live one is signalled; either way the handle is cleared. -/
def emitStop (st : ESt) (exited : Bool) : ESt :=
  match st.cur with
  | none => st
  | some pid => { st with cur := none, tr := st.tr ++ [stopAct exited pid] }

/-- One loop iteration of WatchEvent (src/fswatch.go lines 123-136): a
non-matching event is discarded; a matching one stops the current process,
sleeps the configured delay and starts a replacement. -/
def stepEvt (t : TriggerEvent) (st : ESt) (e : EvtIn) : ESt :=
  if runtimeMatch t e.name then
    emitStart { emitStop st e.exited with
                tr := (emitStop st e.exited).tr ++ [Act.sleep t.delayDuration] }
  else st

/-- Embedding of TriggerEvent.WatchEvent (src/fswatch.go lines 121-139):
start on entry, loop over the received events, and on channel closure stop
the current process (fin says whether it had already exited) and finish. -/
def watchEventRun (t : TriggerEvent) (evts : List EvtIn) (fin : Bool) : ESt :=
  let st1 := evts.foldl (stepEvt t) (emitStart { cur := none, next := 0, tr := [] })
  { emitStop st1 fin with tr := (emitStop st1 fin).tr ++ [Act.done] }

/-- The actions contributed by the events themselves when process i is
current: nothing for a non-matching event; stop, sleep, start for a
matching one. -/
def traceSegs (t : TriggerEvent) (i : Nat) : List EvtIn → List Act
  | [] => []
  | e :: es =>
    if runtimeMatch t e.name then
      stopAct e.exited i :: Act.sleep t.delayDuration :: Act.start (i + 1) ::
        traceSegs t (i + 1) es
    else traceSegs t i es

/-- How many received events match the trigger's patterns. -/
def matchCount (t : TriggerEvent) (evts : List EvtIn) : Nat :=
  (evts.filter (fun e => runtimeMatch t e.name)).length

/-- The declarative engine trace: initial start, the per-event segments,
the final stop of the current process, and termination. -/
def traceSpec (t : TriggerEvent) (evts : List EvtIn) (fin : Bool) : List Act :=
  Act.start 0 :: (traceSegs t 0 evts ++ [stopAct fin (matchCount t evts), Act.done])

/-- The running live-process balance of a trace: +1 per start, -1 per stop
(signalled or observed exited). -/
def liveDelta : Act → Int
  | Act.start _ => 1
  | Act.stopSig _ => -1
  | Act.stopNoop _ => -1
  | _ => 0

/-- Processes started and not yet stopped after a trace. -/
def liveAfter (tr : List Act) : Int :=
  (tr.map liveDelta).sum

/-- The failing input for claim C1: a configuration with one trigger whose
termination signal name is not in the fixed signal table. -/
def cfgC1 : FWConfig :=
  { Description := "", WatchPaths := [], WatchDepth := 0,
    Triggers := [{ Name := "t", Pattens := [], matchPattens := [], Environ := [],
                   Command := "true", Delay := "", delayDuration := 0,
                   Signal := "FOO", killSignal := none }] }

/-- A concrete trigger overriding the DEBUG variable, for the claim C9
witness. -/
def envTrig : TriggerEvent :=
  { Name := "t", Pattens := [], matchPattens := [], Environ := [("DEBUG", "1")],
    Command := "true", Delay := "", delayDuration := 0, Signal := "",
    killSignal := none }

/-- The counterexample configuration for claim C2: a trigger whose pattern
list consists of a "#"-comment line, which the fix-time reader drops but
the runtime test matches literally. -/
def cfgC2 : FWConfig :=
  { Description := "", WatchPaths := ["."], WatchDepth := 5,
    Triggers := [{ Name := "t", Pattens := ["#a"], matchPattens := [], Environ := [],
                   Command := "true", Delay := "100ms", delayDuration := 0,
                   Signal := "HUP", killSignal := none }] }

/-- The watch configuration for the claim C2 witness. -/
def cfgC2w : FWConfig :=
  { Description := "", WatchPaths := ["."], WatchDepth := 5,
    Triggers := [{ Name := "t", Pattens := ["*.go"], matchPattens := [], Environ := [],
                   Command := "true", Delay := "", delayDuration := 0,
                   Signal := "", killSignal := none }] }

/-- The trigger cfgC2w fixes to, for the claim C2 witness. -/
def trigC2w : TriggerEvent :=
  { Name := "t", Pattens := ["*.go"], matchPattens := ["*.go"], Environ := [],
    Command := "true", Delay := "100ms", delayDuration := 100000000,
    Signal := "HUP", killSignal := some OsSignal.sighup }

/-- What claim C3 predicts the change filter does with one notification: a
directory creation adds a watch unforwarded; a removal of a watched
directory removes the watch unforwarded; everything else — including the
removal of a non-directory path — is forwarded when the debounce check
accepts it. -/
abbrev claimC3Step (s : WatchState) (e : RawEvent) : Prop :=
  (e.op = FsOp.create ∧ isDirOf e.stat = true →
    transformStep s e = { s with watched := addWatch s.watched e.name }) ∧
  (e.op = FsOp.remove ∧ e.name ∈ s.watched ∧ isDirOf e.stat = true →
    transformStep s e = { s with watched := s.watched.erase e.name }) ∧
  (¬(e.op = FsOp.create ∧ isDirOf e.stat = true) →
   ¬(e.op = FsOp.remove ∧ e.name ∈ s.watched ∧ isDirOf e.stat = true) →
    transformStep s e =
      (if (isChanged e.stat s.deb e.name).1 then
        { s with deb := (isChanged e.stat s.deb e.name).2, out := s.out ++ [e.name] }
       else { s with deb := (isChanged e.stat s.deb e.name).2 }))

/-- What claim C8 predicts for a directory-creation notification: the
watch set strictly grows. -/
abbrev claimC8Create (s : WatchState) (e : RawEvent) : Prop :=
  e.op = FsOp.create ∧ isDirOf e.stat = true →
    s.watched.length < (transformStep s e).watched.length

/-- The initial-walk state for the claim C8 counterexample: the tree
watcher has registered root "a" and its child "a/b". -/
def stateC8 : WatchState :=
  { watched := (watchPathAndChildren 5 { visits := [], watched := [] }
      [("a", DirTree.node "a" (Forest.cons (DirTree.node "b" Forest.nil) Forest.nil))]).watched,
    deb := [], out := [] }

/-- The number of directories in a forest, the induction measure for the
walk characterization. -/
def forestSize : Forest → Nat
  | .nil => 0
  | .cons (.node _ cs) rest => 1 + forestSize cs + forestSize rest

/-- The scenario tree for the claim C6 witness: a root containing
sub/sub2. -/
def treeA : DirTree :=
  DirTree.node "r" (Forest.cons
    (DirTree.node "sub" (Forest.cons (DirTree.node "sub2" Forest.nil) Forest.nil))
    Forest.nil)

example : matchComp "*.go".data "main.go".data = true := by decide
example : ignoreMatches "main.go" ["*.go"] = true := by decide
example : ignoreMatches "README.md" ["*.go"] = false := by decide
example : ignoreMatches "a.yml" ["*.yml", "!a.yml"] = false := by decide
example : ignoreMatches "sub/x.go" ["**/*.go"] = true := by decide
example : compilePattens ["#a", "", "*.go"] = ["*.go"] := by decide
example : ignoreMatches "#a" ["#a"] = true := by decide
example : parseDuration "100ms" = some 100000000 := by decide
example : parseDuration "1h30m" = some 5400000000000 := by decide
example : parseDuration "abc" = none := by decide
example : parseDuration "-50ms" = some (-50000000) := by decide
example : signalMaps "SIGKILL" = some OsSignal.sigkill := by decide
example : signalMaps "FOO" = none := by decide
example :
    listAllDir "."
      (DirTree.node "r" (Forest.cons
        (DirTree.node "sub" (Forest.cons (DirTree.node "sub2" Forest.nil) Forest.nil))
        Forest.nil)) 1 = [".", "sub", "sub/sub2"] := by decide
example :
    listAllDir "root"
      (DirTree.node "r" (Forest.cons
        (DirTree.node ".git" (Forest.cons (DirTree.node "x" Forest.nil) Forest.nil))
        (Forest.cons (DirTree.node "a" Forest.nil) Forest.nil))) 5 =
      ["root", "root/a"] := by decide
example :
    listAllDir ".git"
      (DirTree.node "g" (Forest.cons (DirTree.node "x" Forest.nil) Forest.nil)) 5 =
      [] := by decide

/-! ## Small helper lemmas -/

lemma debGet_debSet (m : DebMap) (p : String) (v : Int) :
    debGet (debSet m p v) p = v := by
  simp [debGet, debSet]

lemma find?_keys_nodup {l : List (String × String)} {k v}
    (hnd : (l.map Prod.fst).Nodup) (hmem : (k, v) ∈ l) :
    l.find? (fun e => e.1 == k) = some (k, v) := by
  induction l with
  | nil => cases hmem
  | cons a as ih =>
    rw [List.map_cons, List.nodup_cons] at hnd
    rcases List.mem_cons.1 hmem with h | h
    · subst h
      simp [List.find?]
    · have hk : (a.1 == k) = false := by
        refine beq_eq_false_iff_ne.2 ?_
        intro hak
        apply hnd.1
        rw [hak]
        exact List.mem_map.2 ⟨(k, v), h, rfl⟩
      simp only [List.find?, hk]
      exact ih hnd.2 h

lemma find?_keys_none {l : List (String × String)} {k}
    (habs : ∀ v, (k, v) ∉ l) :
    l.find? (fun e => e.1 == k) = none := by
  refine List.find?_eq_none.2 ?_
  rintro ⟨a, b⟩ hmem hp
  simp at hp
  exact habs b (hp ▸ hmem)

/-! ## Claim theorems -/

/-- Claim C1 (code bug): fix-up must fail on a trigger whose signal field
names no entry of the signal table, instead of yielding an unset signal.
Evaluating the code at the failing input shows fix-up succeeding while it
leaves the resolved kill signal unset (none): the Go map lookup
signalMaps[outTg.Signal] silently returns the zero value for the unknown
name "FOO" and no error is raised. -/
theorem fixFWConfig_unknownSignal_silently_unset :
    fixOk cfgC1 = true ∧
      ∃ t ∈ fixedTriggers cfgC1, t.Signal = "FOO" ∧ t.killSignal = none := by
  decide

/-- Claim C4: a notification for a path is accepted exactly when its
modification time exceeds the stored timestamp by strictly more than 100ms;
acceptance (and only acceptance) updates the stored timestamp; hence in any
run of notifications whose modification times stay within 100ms of an
accepted one, only that first one is forwarded. -/
theorem isChanged_debounce (p : String) (m : DebMap) (i : FInfo) :
    ((isChanged (some i) m p).1 = true ↔ i.modTime - debGet m p > 100000000) ∧
    ((isChanged (some i) m p).1 = true →
      debGet (isChanged (some i) m p).2 p = i.modTime) ∧
    ((isChanged (some i) m p).1 = false → (isChanged (some i) m p).2 = m) ∧
    (∀ is2 : List FInfo, i.modTime - debGet m p > 100000000 →
      (∀ j ∈ is2, j.modTime ≤ i.modTime + 100000000) →
      debRunFlags p (i :: is2) m = true :: is2.map (fun _ => false)) := by
  have hrej : ∀ (is2 : List FInfo) (m2 : DebMap),
      (∀ j ∈ is2, j.modTime ≤ debGet m2 p + 100000000) →
      debRunFlags p is2 m2 = is2.map (fun _ => false) := by
    intro is2
    induction is2 with
    | nil => intro m2 _; rfl
    | cons j js ih =>
      intro m2 hb
      have hj : ¬ (j.modTime - debGet m2 p > 100000000) := by
        have := hb j (by simp)
        omega
      simp only [debRunFlags, isChanged, if_neg hj]
      exact congrArg (List.cons false) (ih m2 (fun x hx => hb x (by simp [hx])))
  refine ⟨?_, ?_, ?_, ?_⟩
  · by_cases h : i.modTime - debGet m p > 100000000 <;> simp [isChanged, h]
  · intro h
    by_cases hc : i.modTime - debGet m p > 100000000
    · simp [isChanged, hc, debGet_debSet]
    · simp [isChanged, hc] at h
  · intro h
    by_cases hc : i.modTime - debGet m p > 100000000
    · simp [isChanged, hc] at h
    · simp [isChanged, hc]
  · intro is2 hacc hb
    simp only [debRunFlags, isChanged, if_pos hacc]
    refine congrArg (List.cons true) (hrej is2 (debSet m p i.modTime) ?_)
    intro j hj
    rw [debGet_debSet]
    exact hb j hj

/-- Witness for claim C4 at a concrete run: three notifications at 200ms,
250ms and 300ms against an empty map — only the first is forwarded. -/
theorem isChanged_debounce_witness :
    debRunFlags "f.go" [⟨false, 200000000⟩, ⟨false, 250000000⟩, ⟨false, 300000000⟩] [] =
      [true, false, false] := by
  have h := (isChanged_debounce "f.go" [] ⟨false, 200000000⟩).2.2.2
    [⟨false, 250000000⟩, ⟨false, 300000000⟩] (by decide) (by decide)
  simpa using h

/-- Claim C9: the environment a trigger's command starts with is the
inherited process environment with the trigger's Environ entries appended,
and since os/exec keeps the last entry per name, the trigger's value wins
for every key it overrides while every other key keeps its inherited
value. -/
theorem startEnv_override_wins (t : TriggerEvent) (osEnv : List (String × String))
    (k : String) (hnd : (t.Environ.map Prod.fst).Nodup) :
    (∀ v, (k, v) ∈ t.Environ → lookupEnv (startEnv t osEnv) k = some v) ∧
    ((∀ v, (k, v) ∉ t.Environ) → lookupEnv (startEnv t osEnv) k = lookupEnv osEnv k) := by
  constructor
  · intro v hmem
    have hnd2 : (t.Environ.reverse.map Prod.fst).Nodup := by
      rw [List.map_reverse]
      exact List.nodup_reverse.2 hnd
    have hfind := find?_keys_nodup hnd2 (List.mem_reverse.2 hmem)
    simp only [lookupEnv, startEnv, List.reverse_append, List.find?_append, hfind]
    rfl
  · intro habs
    have hnone : t.Environ.reverse.find? (fun e => e.1 == k) = none :=
      find?_keys_none (fun v hv => habs v (List.mem_reverse.1 hv))
    simp [lookupEnv, startEnv, List.reverse_append, List.find?_append, hnone]

/-- Witness for claim C9: a trigger overriding DEBUG wins over the
inherited value. -/
theorem startEnv_override_wins_witness :
    lookupEnv (startEnv envTrig [("DEBUG", "0"), ("HOME", "/root")]) "DEBUG" =
      some "1" := by
  have h := startEnv_override_wins envTrig [("DEBUG", "0"), ("HOME", "/root")] "DEBUG"
    (by decide)
  exact h.1 "1" (by decide)

/-- Claim C10: a notification whose path cannot be stat-ed when the change
filter consults it is treated as a change and forwarded, and the stored
debounce timestamp map is left unchanged; such notifications are never
suppressed. -/
theorem statFailure_always_forwarded (s : WatchState) (e : RawEvent)
    (hstat : e.stat = none) (hop : e.op ≠ FsOp.remove) :
    (∀ (m : DebMap) (p : String), isChanged none m p = (true, m)) ∧
    transformStep s e = { s with out := s.out ++ [e.name] } := by
  refine ⟨fun m p => rfl, ?_⟩
  have hbeq : (e.op == FsOp.remove) = false := by
    cases ho : e.op <;> simp_all
  simp [transformStep, hstat, isDirOf, isChanged, hbeq]

/-- Witness for claim C10: a write notification for an already deleted
path is forwarded and changes neither map nor watch set. -/
theorem statFailure_always_forwarded_witness :
    transformStep { watched := ["d"], deb := [("gone.go", 5)], out := [] }
        { name := "gone.go", op := FsOp.write, stat := none } =
      { watched := ["d"], deb := [("gone.go", 5)], out := ["gone.go"] } := by
  have h := statFailure_always_forwarded
    { watched := ["d"], deb := [("gone.go", 5)], out := [] }
    { name := "gone.go", op := FsOp.write, stat := none } rfl (by decide)
  exact h.2

/-! ## Claim C2: runtime matching versus the fix-time compiled matcher -/

lemma mapME_mem (f : TriggerEvent → Except String TriggerEvent) :
    ∀ (ts ts2 : List TriggerEvent), mapME f ts = Except.ok ts2 →
      ∀ x ∈ ts2, ∃ y ∈ ts, f y = Except.ok x := by
  intro ts
  induction ts with
  | nil =>
    intro ts2 h x hx
    simp only [mapME] at h
    cases h
    cases hx
  | cons t rest ih =>
    intro ts2 h x hx
    simp only [mapME] at h
    cases hf : f t with
    | error e => rw [hf] at h; cases h
    | ok t2 =>
      rw [hf] at h
      cases hm : mapME f rest with
      | error e => rw [hm] at h; cases h
      | ok rest2 =>
        rw [hm] at h
        cases h
        rcases List.mem_cons.1 hx with h1 | h1
        · exact ⟨t, by simp, by rw [hf, h1]⟩
        · obtain ⟨y, hy, hfy⟩ := ih rest2 hm x h1
          exact ⟨y, by simp [hy], hfy⟩

lemma fixTrigger_fields {y x : TriggerEvent} (h : fixTrigger y = Except.ok x) :
    x.Pattens = y.Pattens ∧ x.matchPattens = compilePattens y.Pattens := by
  simp only [fixTrigger] at h
  cases hp : parseDuration (if y.Delay = "" then "100ms" else y.Delay) with
  | none => rw [hp] at h; cases h
  | some d =>
    rw [hp] at h
    cases h
    exact ⟨rfl, rfl⟩

lemma fixedTriggers_compiled {c : FWConfig} {t : TriggerEvent}
    (h : t ∈ fixedTriggers c) : t.matchPattens = compilePattens t.Pattens := by
  unfold fixedTriggers at h
  cases hf : fixFWConfig c with
  | error e => rw [hf] at h; cases h
  | ok o =>
    rw [hf] at h
    simp only [fixFWConfig] at hf
    cases hm : mapME fixTrigger c.Triggers with
    | error e => rw [hm] at hf; cases hf
    | ok ts =>
      rw [hm] at hf
      cases hf
      simp only at h
      obtain ⟨y, _, hfy⟩ := mapME_mem fixTrigger c.Triggers ts hm t h
      obtain ⟨h1, h2⟩ := fixTrigger_fields hfy
      rw [h2, ← h1]

/-- Counterexample to claim C2 as stated: after a successful fix-up there
is a trigger and a path on which the runtime pattern test (over the raw
Pattens, re-read on every event) disagrees with the matcher compiled into
matchPattens at fix time. -/
theorem runtimeMatch_ne_compiled_counterexample :
    ∃ t ∈ fixedTriggers cfgC2,
      runtimeMatch t "#a" ≠ ignoreMatches "#a" t.matchPattens := by
  decide

/-- Claim C2 (amended): WatchEvent re-reads the raw Pattens on every event
and never consults the compiled matchPattens; for any fixed trigger whose
pattern list is left unchanged by compilation (no blank or comment lines,
already clean), the runtime test nevertheless agrees with the fix-time
compiled matcher on every path. -/
theorem runtimeMatch_eq_compiled (c : FWConfig) (t : TriggerEvent)
    (hmem : t ∈ fixedTriggers c) (hstable : compilePattens t.Pattens = t.Pattens)
    (path : String) :
    runtimeMatch t path = ignoreMatches path t.matchPattens := by
  rw [runtimeMatch, fixedTriggers_compiled hmem, hstable]

/-- Witness for the amended claim C2 at a concrete fixed trigger and
path. -/
theorem runtimeMatch_eq_compiled_witness :
    runtimeMatch trigC2w "main.go" = ignoreMatches "main.go" trigC2w.matchPattens :=
  runtimeMatch_eq_compiled cfgC2w trigC2w (by decide) (by decide) "main.go"

/-! ## Claim C3: classification of raw notifications -/

/-- Counterexample to claim C3 as stated: the removal of a plain file —
not a watched directory — whose debounce check would accept it is
nevertheless swallowed by the code, because transformEvent drops every
Remove notification. -/
theorem removeFile_not_forwarded_counterexample :
    ¬ claimC3Step { watched := [], deb := [], out := [] }
        { name := "f.txt", op := FsOp.remove, stat := some ⟨false, 200000000⟩ } := by
  decide

lemma transformRun_cons (e : RawEvent) (es : List RawEvent) (s : WatchState) :
    transformRun (e :: es) s = transformRun es (transformStep s e) := rfl

lemma transformRun_out : ∀ (evts : List RawEvent) (s : WatchState),
    (transformRun evts s).out = s.out ++ acceptedNames evts s.deb := by
  intro evts
  induction evts with
  | nil => intro s; simp [transformRun, acceptedNames]
  | cons e es ih =>
    intro s
    rw [transformRun_cons, ih]
    by_cases hc : (e.op == FsOp.create && isDirOf e.stat) = true
    · simp [transformStep, acceptedNames, hc]
    · by_cases hrm : (e.op == FsOp.remove) = true
      · simp [transformStep, acceptedNames, hc, hrm]
      · by_cases hacc : (isChanged e.stat s.deb e.name).1 = true
        · simp [transformStep, acceptedNames, hc, hrm, hacc]
        · simp [transformStep, acceptedNames, hc, hrm, hacc]

/-- Claim C3 (amended): a directory-creation notification adds a watch and
is not forwarded; EVERY removal notification — watched directory or not —
attempts the watch removal and is not forwarded; every remaining
notification is forwarded exactly when the debounce check accepts it; and
over any notification sequence the forwarded names depend only on the
debounce state, never on the watch set. -/
theorem transformStep_classification (s : WatchState) (e : RawEvent) :
    (e.op = FsOp.create ∧ isDirOf e.stat = true →
      transformStep s e = { s with watched := addWatch s.watched e.name }) ∧
    (e.op = FsOp.remove →
      transformStep s e = { s with watched := s.watched.erase e.name }) ∧
    (¬(e.op = FsOp.create ∧ isDirOf e.stat = true) → e.op ≠ FsOp.remove →
      transformStep s e =
        (if (isChanged e.stat s.deb e.name).1 then
          { s with deb := (isChanged e.stat s.deb e.name).2, out := s.out ++ [e.name] }
         else { s with deb := (isChanged e.stat s.deb e.name).2 })) ∧
    (∀ (evts : List RawEvent) (s2 : WatchState),
      (transformRun evts s2).out = s2.out ++ acceptedNames evts s2.deb) := by
  refine ⟨?_, ?_, ?_, fun evts s2 => transformRun_out evts s2⟩
  · rintro ⟨h1, h2⟩
    simp [transformStep, h1, h2]
  · intro h
    have hc : (e.op == FsOp.create && isDirOf e.stat) = false := by simp [h]
    simp [transformStep, hc, h]
  · intro h1 h2
    have hc : (e.op == FsOp.create && isDirOf e.stat) = false := by
      by_cases ho : e.op = FsOp.create
      · rcases Bool.eq_false_or_eq_true (isDirOf e.stat) with ht | hf
        · exact absurd ⟨ho, ht⟩ h1
        · simp [hf]
      · simp [ho]
    have hr : (e.op == FsOp.remove) = false := by simp [h2]
    by_cases hacc : (isChanged e.stat s.deb e.name).1 = true
    · simp [transformStep, hc, hr, hacc]
    · simp [transformStep, hc, hr, hacc]

/-- Witness for the amended claim C3: a Remove notification for a watched
directory removes the watch and forwards nothing. -/
theorem transformStep_classification_witness :
    transformStep { watched := ["d"], deb := [], out := [] }
        { name := "d", op := FsOp.remove, stat := none } =
      { watched := [], deb := [], out := [] } := by
  have h := (transformStep_classification { watched := ["d"], deb := [], out := [] }
    { name := "d", op := FsOp.remove, stat := none }).2.1 rfl
  rw [h]
  decide

/-! ## Claim C8: evolution of the watch set -/

/-- Counterexample to claim C8 as stated: a directory-creation
notification for a path already registered by the initial walk (possible
when a remove notification was lost, e.g. to queue overflow, and the
directory reappears) does not strictly extend the watch set — fsnotify
Add is idempotent. -/
theorem watchSet_create_not_strict_counterexample :
    ¬ claimC8Create stateC8
        { name := "a/b", op := FsOp.create, stat := some ⟨true, 0⟩ } := by
  decide

lemma addWatch_nodup {ws : List String} {n : String} (h : ws.Nodup) :
    (addWatch ws n).Nodup := by
  unfold addWatch
  by_cases hm : n ∈ ws
  · simpa [hm]
  · simp [hm, List.nodup_append, h]

lemma watchDir_nodup {st : WalkSt} {dir : String} (h : st.watched.Nodup) :
    (watchDir st dir).watched.Nodup := by
  unfold watchDir
  by_cases hm : dir ∈ st.visits
  · simpa [hm]
  · simpa [hm] using addWatch_nodup h

lemma foldl_watchDir_nodup (dirs : List String) :
    ∀ st : WalkSt, st.watched.Nodup → ((dirs.foldl watchDir st).watched).Nodup := by
  induction dirs with
  | nil => intro st h; exact h
  | cons d ds ih => intro st h; exact ih (watchDir st d) (watchDir_nodup h)

lemma watchPathAndChildren_nodup (depth : Int) :
    ∀ (roots : List (String × DirTree)) (st : WalkSt), st.watched.Nodup →
      ((watchPathAndChildren depth st roots).watched).Nodup := by
  intro roots
  induction roots with
  | nil => intro st h; exact h
  | cons r rs ih =>
    intro st h
    obtain ⟨path, tree⟩ := r
    rw [watchPathAndChildren]
    by_cases hm : path ∈ st.visits
    · simpa [hm] using ih st h
    · simp only [hm, if_false]
      exact ih _ (foldl_watchDir_nodup _ _ (watchDir_nodup h))

/-- Claim C8 (amended): a directory-creation notification ensures the path
is in the watch set — strictly extending it exactly when the path was not
already watched; a removal notification ensures its absence — strictly
shrinking the set exactly when the path was watched; the watch set never
holds a path twice, whether filled by the initial walk or adjusted at
runtime. -/
theorem watchSet_invariants (s : WatchState) (e : RawEvent)
    (hnd : s.watched.Nodup) :
    (e.op = FsOp.create ∧ isDirOf e.stat = true →
      e.name ∈ (transformStep s e).watched ∧
      s.watched ⊆ (transformStep s e).watched ∧
      (e.name ∉ s.watched →
        (transformStep s e).watched.length = s.watched.length + 1)) ∧
    (e.op = FsOp.remove →
      e.name ∉ (transformStep s e).watched ∧
      (transformStep s e).watched ⊆ s.watched ∧
      (e.name ∈ s.watched →
        (transformStep s e).watched.length + 1 = s.watched.length)) ∧
    (transformStep s e).watched.Nodup ∧
    (∀ (depth : Int) (roots : List (String × DirTree)),
      ((watchPathAndChildren depth { visits := [], watched := [] } roots).watched).Nodup) := by
  refine ⟨?_, ?_, ?_, fun depth roots =>
    watchPathAndChildren_nodup depth roots _ List.nodup_nil⟩
  · rintro ⟨h1, h2⟩
    have hstep : (transformStep s e).watched = addWatch s.watched e.name := by
      simp [transformStep, h1, h2]
    rw [hstep]
    unfold addWatch
    by_cases hm : e.name ∈ s.watched
    · simp [hm]
    · simp [hm]
  · intro h
    have hc : (e.op == FsOp.create && isDirOf e.stat) = false := by simp [h]
    have hstep : (transformStep s e).watched = s.watched.erase e.name := by
      simp [transformStep, hc, h]
    rw [hstep]
    refine ⟨hnd.not_mem_erase, List.erase_subset _ _, fun hm => ?_⟩
    rw [List.length_erase_of_mem hm]
    have : 0 < s.watched.length := List.length_pos.2 (List.ne_nil_of_mem hm)
    omega
  · by_cases hc : (e.op == FsOp.create && isDirOf e.stat) = true
    · have : (transformStep s e).watched = addWatch s.watched e.name := by
        simp [transformStep, hc]
      rw [this]; exact addWatch_nodup hnd
    · by_cases hrm : (e.op == FsOp.remove) = true
      · have : (transformStep s e).watched = s.watched.erase e.name := by
          simp [transformStep, hc, hrm]
        rw [this]; exact hnd.erase _
      · by_cases hacc : (isChanged e.stat s.deb e.name).1 = true
        · have : (transformStep s e).watched = s.watched := by
            simp [transformStep, hc, hrm, hacc]
          rw [this]; exact hnd
        · have : (transformStep s e).watched = s.watched := by
            simp [transformStep, hc, hrm, hacc]
          rw [this]; exact hnd

/-- Witness for the amended claim C8: from a singleton watch set, a
creation notification for a fresh directory strictly extends the set. -/
theorem watchSet_invariants_witness :
    "b" ∈ (transformStep { watched := ["a"], deb := [], out := [] }
      { name := "b", op := FsOp.create, stat := some ⟨true, 0⟩ }).watched := by
  have h := (watchSet_invariants { watched := ["a"], deb := [], out := [] }
    { name := "b", op := FsOp.create, stat := some ⟨true, 0⟩ } (by decide)).1
    ⟨rfl, rfl⟩
  exact h.1

/-! ## Claims C5 and C7: the trigger engine trace -/

lemma foldl_stepEvt (t : TriggerEvent) :
    ∀ (evts : List EvtIn) (i : Nat) (T : List Act),
      evts.foldl (stepEvt t) { cur := some i, next := i + 1, tr := T } =
        { cur := some (i + matchCount t evts), next := i + matchCount t evts + 1,
          tr := T ++ traceSegs t i evts } := by
  intro evts
  induction evts with
  | nil => intro i T; simp [matchCount, traceSegs]
  | cons e es ih =>
    intro i T
    rw [List.foldl_cons]
    by_cases h : runtimeMatch t e.name
    · have hstep : stepEvt t { cur := some i, next := i + 1, tr := T } e =
          { cur := some (i + 1), next := i + 1 + 1,
            tr := (T ++ [stopAct e.exited i, Act.sleep t.delayDuration]) ++
              [Act.start (i + 1)] } := by
        simp [stepEvt, h, emitStop, emitStart, List.append_assoc]
      rw [hstep, ih (i + 1) _]
      have hmc : matchCount t (e :: es) = matchCount t es + 1 := by
        simp [matchCount, h]
      have hseg : traceSegs t i (e :: es) =
          stopAct e.exited i :: Act.sleep t.delayDuration :: Act.start (i + 1) ::
            traceSegs t (i + 1) es := by
        simp [traceSegs, h]
      rw [hmc, hseg]
      have h1 : i + 1 + matchCount t es = i + (matchCount t es + 1) := by omega
      simp [h1, List.append_assoc]
    · have hstep : stepEvt t { cur := some i, next := i + 1, tr := T } e =
          { cur := some i, next := i + 1, tr := T } := by
        simp [stepEvt, h]
      rw [hstep, ih i T]
      simp [matchCount, traceSegs, h]

lemma watchEventRun_tr (t : TriggerEvent) (evts : List EvtIn) (fin : Bool) :
    (watchEventRun t evts fin).tr = traceSpec t evts fin := by
  unfold watchEventRun
  have h0 : emitStart { cur := none, next := 0, tr := [] } =
      { cur := some 0, next := 0 + 1, tr := ([] : List Act) ++ [Act.start 0] } := by
    simp [emitStart]
  rw [h0, foldl_stepEvt t evts 0 _]
  simp [emitStop, traceSpec, List.append_assoc]

/-- Claim C7: the engine discards non-matching events leaving the process
untouched; on a matching event it performs, in order, a stop of the current
process (a signal, or a no-op observation when it already exited), a sleep
of the configured delay, and the start of a replacement; and on channel
closure it stops the current process and terminates. -/
theorem watchEvent_trace_order (t : TriggerEvent) (evts : List EvtIn) (fin : Bool) :
    (watchEventRun t evts fin).tr = traceSpec t evts fin :=
  watchEventRun_tr t evts fin

lemma liveAfter_cons (a : Act) (l : List Act) :
    liveAfter (a :: l) = liveDelta a + liveAfter l := by
  simp [liveAfter]

lemma liveDelta_stopAct (ex : Bool) (i : Nat) : liveDelta (stopAct ex i) = -1 := by
  cases ex <;> simp [stopAct, liveDelta]

lemma tail_prefix_balance (fin : Bool) (mc : Nat) :
    ∀ k, liveAfter (([stopAct fin mc, Act.done]).take k) ≤ 0 := by
  intro k
  obtain _ | _ | k := k
  · simp [liveAfter]
  · rw [List.take_succ_cons, List.take_zero, liveAfter_cons, liveDelta_stopAct]
    simp [liveAfter]
  · rw [List.take_succ_cons, List.take_succ_cons, liveAfter_cons, liveDelta_stopAct]
    simp [liveAfter, liveDelta]

lemma traceSegs_prefix_balance (t : TriggerEvent) :
    ∀ (evts : List EvtIn) (i : Nat) (tail : List Act),
      (∀ k, liveAfter (tail.take k) ≤ 0) →
      ∀ k, liveAfter ((traceSegs t i evts ++ tail).take k) ≤ 0 := by
  intro evts
  induction evts with
  | nil => intro i tail htail k; simpa [traceSegs] using htail k
  | cons e es ih =>
    intro i tail htail k
    by_cases h : runtimeMatch t e.name
    · have hseg : traceSegs t i (e :: es) =
          stopAct e.exited i :: Act.sleep t.delayDuration :: Act.start (i + 1) ::
            traceSegs t (i + 1) es := by
        simp [traceSegs, h]
      rw [hseg]
      simp only [List.cons_append]
      obtain _ | _ | _ | k := k
      · simp [liveAfter]
      · rw [List.take_succ_cons, List.take_zero, liveAfter_cons, liveDelta_stopAct]
        simp [liveAfter]
      · rw [List.take_succ_cons, List.take_succ_cons, List.take_zero, liveAfter_cons,
          liveAfter_cons, liveDelta_stopAct]
        simp [liveAfter, liveDelta]
      · have hk := ih (i + 1) tail htail k
        rw [List.take_succ_cons, List.take_succ_cons, List.take_succ_cons,
          liveAfter_cons, liveAfter_cons, liveAfter_cons, liveDelta_stopAct]
        simp only [liveDelta]
        omega
    · have hseg : traceSegs t i (e :: es) = traceSegs t i es := by
        simp [traceSegs, h]
      rw [hseg]
      exact ih i tail htail k

/-- Claim C5: for every trigger, event interleaving and trace instant, at
most one process is in the started-but-not-yet-stopped state — the engine
always stops its current process (or observes it exited) before starting a
replacement. -/
theorem atMostOne_live_process (t : TriggerEvent) (evts : List EvtIn) (fin : Bool)
    (k : Nat) :
    liveAfter (((watchEventRun t evts fin).tr).take k) ≤ 1 := by
  rw [watchEventRun_tr]
  unfold traceSpec
  obtain _ | k := k
  · simp [liveAfter]
  · rw [List.take_succ_cons, liveAfter_cons]
    have h := traceSegs_prefix_balance t evts 0
      [stopAct fin (matchCount t evts), Act.done]
      (tail_prefix_balance fin (matchCount t evts)) k
    simp only [liveDelta]
    omega

/-! ## Claim C6: helper lemmas about path bases under joins -/

lemma dropWhile_all_neg {α : Type} (p : α → Bool) :
    ∀ l : List α, (∀ a ∈ l, p a = false) → l.dropWhile p = l := by
  intro l h
  cases l with
  | nil => rfl
  | cons a l2 => simp [List.dropWhile_cons, h a (by simp)]

lemma takeWhile_all_pos {α : Type} (p : α → Bool) :
    ∀ l : List α, (∀ a ∈ l, p a = true) → l.takeWhile p = l := by
  intro l
  induction l with
  | nil => intro _; rfl
  | cons a l2 ih =>
    intro h
    simp [List.takeWhile_cons, h a (by simp)]
    intro x hx
    exact h x (by simp [hx])

lemma takeWhile_append_over {α : Type} (p : α → Bool) (a : α) (l2 : List α) :
    ∀ l1 : List α, (∀ x ∈ l1, p x = true) → p a = false →
      ((l1 ++ a :: l2).takeWhile p) = l1 := by
  intro l1
  induction l1 with
  | nil => intro _ ha; simp [List.takeWhile_cons, ha]
  | cons x xs ih =>
    intro h ha
    simp [List.takeWhile_cons, h x (by simp)]
    exact ih (fun y hy => h y (by simp [hy])) ha

lemma string_data_ne_nil {n : String} (h : n ≠ "") : n.data ≠ [] := by
  intro hd
  apply h
  cases n
  simp at hd
  simp [hd]

lemma pathBase_join (q n : String) (hne : n ≠ "") (hns : '/' ∉ n.data) :
    pathBase (joinPath q n) = n := by
  have hdata : n.data ≠ [] := string_data_ne_nil hne
  have hrevne : n.data.reverse ≠ [] := by simpa using hdata
  have hallf : ∀ c ∈ n.data.reverse, (c == '/') = false := by
    intro c hc
    have hm : c ∈ n.data := List.mem_reverse.1 hc
    refine beq_eq_false_iff_ne.2 ?_
    intro hcq
    exact hns (hcq ▸ hm)
  have hallt : ∀ c ∈ n.data.reverse, (c != '/') = true := by
    intro c hc
    simpa [bne] using hallf c hc
  unfold joinPath
  by_cases hq : q = "."
  · simp only [hq, if_true]
    unfold pathBase
    rw [if_neg hne, dropWhile_all_neg _ _ hallf]
    rw [if_neg hrevne, takeWhile_all_pos _ _ hallt, List.reverse_reverse]
  · simp only [hq, if_false]
    have hpdata : (q ++ "/" ++ n).data = q.data ++ '/' :: n.data := by
      simp [String.data_append]
    have hne2 : q ++ "/" ++ n ≠ "" := by
      intro he
      have : (q ++ "/" ++ n).data = [] := by rw [he]
      rw [hpdata] at this
      simp at this
    unfold pathBase
    rw [if_neg hne2, hpdata]
    have hrev : (q.data ++ '/' :: n.data).reverse =
        n.data.reverse ++ '/' :: q.data.reverse := by
      simp [List.reverse_append]
    rw [hrev]
    obtain ⟨c, l2, hc⟩ : ∃ c l2, n.data.reverse = c :: l2 := by
      cases hr : n.data.reverse with
      | nil => exact absurd hr hrevne
      | cons c l2 => exact ⟨c, l2, rfl⟩
    have hcf : (c == '/') = false := hallf c (by rw [hc]; simp)
    have hdrop : ((n.data.reverse ++ '/' :: q.data.reverse).dropWhile
        (fun x => x == '/')) = n.data.reverse ++ '/' :: q.data.reverse := by
      rw [hc, List.cons_append, List.dropWhile_cons]
      simp [hcf]
    rw [hdrop]
    rw [if_neg (by rw [hc]; simp)]
    rw [takeWhile_append_over _ _ _ _ hallt (by simp [bne])]
    rw [List.reverse_reverse]

lemma pathOfChain_singleton (q n : String) : pathOfChain q [n] = joinPath q n := rfl

lemma pathOfChain_cons (q n : String) (ch : List String) :
    pathOfChain q (n :: ch) = pathOfChain (joinPath q n) ch := rfl

lemma mem_walkForest (dmax : Int) (bs : Nat) :
    ∀ (N : Nat) (ts : Forest), forestSize ts ≤ N → goodNames ts = true →
      ∀ (q p : String),
      (p ∈ walkForest dmax bs q ts ↔
        ∃ ch ∈ forestChains ts, p = pathOfChain q ch ∧ belowOk dmax bs q ch = true) := by
  intro N
  induction N with
  | zero =>
    intro ts hsz _ q p
    cases ts with
    | nil => simp [walkForest, forestChains]
    | cons t rest =>
      obtain ⟨n, cs⟩ := t
      exfalso
      simp [forestSize] at hsz
  | succ N ih =>
    intro ts hsz hgn q p
    cases ts with
    | nil => simp [walkForest, forestChains]
    | cons t rest =>
      obtain ⟨n, cs⟩ := t
      have hsz1 : forestSize cs ≤ N := by simp [forestSize] at hsz; omega
      have hsz2 : forestSize rest ≤ N := by simp [forestSize] at hsz; omega
      have hg := hgn
      simp only [goodNames, Bool.and_eq_true] at hg
      obtain ⟨⟨⟨⟨h1, h2⟩, h3⟩, h4⟩, h5⟩ := hg
      have hne : n ≠ "" := by simpa using h1
      have hdot : n ≠ "." := by simpa using h2
      have hsl : '/' ∉ n.data := by simpa using h3
      have hpb : pathBase (joinPath q n) = n := pathBase_join q n hne hsl
      have ihcs := ih cs hsz1 h4 (joinPath q n) p
      have ihrest := ih rest hsz2 h5 q p
      have hdotb : (n != ".") = true := by simpa using hdot
      by_cases hhid : strHasPfx n "." = true
      · -- hidden child: pruned together with its subtree
        have hG1 : ((pathBase (joinPath q n)) != "." &&
            strHasPfx (pathBase (joinPath q n)) ".") = true := by
          rw [hpb, hdotb, hhid]
          rfl
        simp only [walkForest, hG1, if_true, List.nil_append]
        rw [ihrest]
        constructor
        · rintro ⟨ch, hch, hpeq, hbel⟩
          refine ⟨ch, ?_, hpeq, hbel⟩
          simp only [forestChains]
          exact List.mem_append_right _ hch
        · rintro ⟨ch, hch, hpeq, hbel⟩
          simp only [forestChains, List.mem_cons, List.mem_append, List.mem_map] at hch
          rcases hch with (hch | ⟨ch2, hch2, hch2eq⟩) | hch
          · subst hch
            simp only [belowOk, hpb, hhid] at hbel
            simp at hbel
          · subst hch2eq
            simp only [belowOk, hpb, hhid] at hbel
            simp at hbel
          · exact ⟨ch, hch, hpeq, hbel⟩
      · have hhidf : strHasPfx n "." = false := by
          rcases Bool.eq_false_or_eq_true (strHasPfx n ".") with h | h
          · exact absurd h hhid
          · exact h
        have hG1 : ((pathBase (joinPath q n)) != "." &&
            strHasPfx (pathBase (joinPath q n)) ".") = false := by
          rw [hpb, hhidf]
          simp
        by_cases hdep : (sepCount (joinPath q n) : Int) - (bs : Int) ≤ dmax
        · -- visible, within depth: listed together with its walked subtree
          have hG2 : decide ((sepCount (joinPath q n) : Int) - (bs : Int) > dmax) =
              false := by simp; omega
          simp only [walkForest, hG1, hG2, if_false, Bool.false_eq_true,
            List.cons_append, List.mem_cons, List.mem_append]
          constructor
          · rintro (hp | hp | hp)
            · refine ⟨[n], by
                simp only [forestChains]
                exact List.mem_append_left _ (List.mem_cons_self _ _),
                by rw [hp, pathOfChain_singleton], ?_⟩
              simp [belowOk, hpb, hhidf, hdep]
            · obtain ⟨ch2, hch2, hpeq, hbel2⟩ := ihcs.1 hp
              refine ⟨n :: ch2, ?_, by rw [hpeq, pathOfChain_cons], ?_⟩
              · simp only [forestChains]
                exact List.mem_append_left _
                  (List.mem_cons_of_mem _ (List.mem_map_of_mem _ hch2))
              · simp [belowOk, hpb, hhidf, hdep, hbel2]
            · obtain ⟨ch, hch, hpeq, hbel⟩ := ihrest.1 hp
              refine ⟨ch, ?_, hpeq, hbel⟩
              simp only [forestChains]
              exact List.mem_append_right _ hch
          · rintro ⟨ch, hch, hpeq, hbel⟩
            simp only [forestChains, List.mem_cons, List.mem_append, List.mem_map] at hch
            rcases hch with (hch | ⟨ch2, hch2, hch2eq⟩) | hch
            · subst hch
              left
              rw [hpeq, pathOfChain_singleton]
            · subst hch2eq
              right
              left
              simp only [belowOk, hpb, Bool.and_eq_true] at hbel
              refine ihcs.2 ⟨ch2, hch2, ?_, hbel.2⟩
              rw [hpeq, pathOfChain_cons]
            · right
              right
              exact ihrest.2 ⟨ch, hch, hpeq, hbel⟩
        · -- visible but too deep: pruned together with its subtree
          have hG2 : decide ((sepCount (joinPath q n) : Int) - (bs : Int) > dmax) =
              true := by simp; omega
          simp only [walkForest, hG1, hG2, if_true, Bool.false_eq_true, if_false,
            List.nil_append]
          rw [ihrest]
          constructor
          · rintro ⟨ch, hch, hpeq, hbel⟩
            refine ⟨ch, ?_, hpeq, hbel⟩
            simp only [forestChains]
            exact List.mem_append_right _ hch
          · rintro ⟨ch, hch, hpeq, hbel⟩
            simp only [forestChains, List.mem_cons, List.mem_append, List.mem_map] at hch
            rcases hch with (hch | ⟨ch2, hch2, hch2eq⟩) | hch
            · subst hch
              simp only [belowOk, hpb, Bool.and_eq_true] at hbel
              exact absurd (of_decide_eq_true hbel.1.2) hdep
            · subst hch2eq
              simp only [belowOk, hpb, Bool.and_eq_true] at hbel
              exact absurd (of_decide_eq_true hbel.1.2) hdep
            · exact ⟨ch, hch, hpeq, hbel⟩

lemma rootVisible_eq_not_guard (root : String) :
    rootVisible root =
      !((pathBase root != ".") && strHasPfx (pathBase root) ".") := by
  simp [rootVisible, bne, Bool.not_and]

/-- Counterexample to claim C6 as stated: the code excludes a root named
".git" together with its entire subtree, although the claim exempts the
root itself from the hidden-name check — the code's exemption is for a base
name equal to ".", not for being the root. -/
theorem hiddenRoot_excluded_counterexample :
    ¬ ((".git" ∈ listAllDir ".git" (DirTree.node "g" Forest.nil) 5) ↔
      claimListed ".git" (DirTree.node "g" Forest.nil) 5 ".git") := by
  decide

/-- Claim C6 (amended): the enumeration returns exactly the directories of
the root's subtree reachable through ancestors (a) none of which — the
root now included, unless its base name is literally "." — has a base name
starting with ".", and (b) whose separator depth relative to the root stays
within the maximum; a directory violating either is excluded with its whole
subtree. -/
theorem listAllDir_members (root : String) (t : DirTree) (dmax : Int)
    (hgn : goodNames t.children = true) (p : String) :
    p ∈ listAllDir root t dmax ↔ amendedListed root t dmax p := by
  obtain ⟨rn, cs⟩ := t
  simp only [DirTree.children] at hgn
  by_cases hhid : ((pathBase root) != "." && strHasPfx (pathBase root) ".") = true
  · have hrv : rootVisible root = false := by
      rw [rootVisible_eq_not_guard, hhid]
      rfl
    simp only [listAllDir, hhid, if_true]
    simp [amendedListed, hrv]
  · have hG1 : ((pathBase root) != "." && strHasPfx (pathBase root) ".") = false := by
      rcases Bool.eq_false_or_eq_true ((pathBase root) != "." &&
        strHasPfx (pathBase root) ".") with h | h
      · exact absurd h hhid
      · exact h
    have hrv : rootVisible root = true := by
      rw [rootVisible_eq_not_guard, hG1]
      rfl
    by_cases hdep : (0 : Int) ≤ dmax
    · have hG2 : decide ((sepCount root : Int) - (sepCount root : Int) > dmax) =
          false := by simp; omega
      simp only [listAllDir, hG1, hG2, Bool.false_eq_true, if_false,
        DirTree.children]
      constructor
      · intro hp
        rcases List.mem_cons.1 hp with hp | hp
        · exact ⟨hrv, [], by simp, hp, hdep, rfl⟩
        · obtain ⟨ch, hch, hpeq, hbel⟩ :=
            (mem_walkForest dmax (sepCount root) (forestSize cs) cs le_rfl hgn
              root p).1 hp
          exact ⟨hrv, ch, List.mem_cons_of_mem _ hch, hpeq, hdep, hbel⟩
      · rintro ⟨_, ch, hch, hpeq, _, hbel⟩
        rcases List.mem_cons.1 hch with hch | hch
        · subst hch
          rw [hpeq]
          exact List.mem_cons_self _ _
        · exact List.mem_cons_of_mem _
            ((mem_walkForest dmax (sepCount root) (forestSize cs) cs le_rfl hgn
              root p).2 ⟨ch, hch, hpeq, hbel⟩)
    · have hG2 : decide ((sepCount root : Int) - (sepCount root : Int) > dmax) =
          true := by simp; omega
      simp only [listAllDir, hG1, hG2, Bool.false_eq_true, if_false, if_true]
      constructor
      · intro hp
        cases hp
      · rintro ⟨_, ch, _, _, hd, _⟩
        exact absurd hd hdep

/-- Witness for the amended claim C6 at the concrete scenario tree under
root "." with maximum depth 1. -/
theorem listAllDir_members_witness :
    ("sub/sub2" ∈ listAllDir "." treeA 1) ↔ amendedListed "." treeA 1 "sub/sub2" :=
  listAllDir_members "." treeA 1 (by decide) "sub/sub2"
